import Mathlib

/-!
Shallow embedding of the event-log construction and process-model
feature-extraction pipeline (files `data_collection.py` and
`process_mining.py` of the repository).

Modelling conventions:
* A CSV row of the raw event corpus is a `RawRow`; the parsed
  `created_at` timestamp is an `Option Int` (seconds; `none` models a
  `NaT` produced by `pd.to_datetime(..., errors := coerce)`).
* The cleaned table produced by `clean_data` is a list of `CleanRow`
  (a `RawRow` plus the derived `time_diff` column, in seconds,
  `none` modelling `NaN`).
* `df.sort_values(by := [id_repo, created_at])` sorts on several keys,
  which pandas performs with a stable lexicographic sort
  (`np.lexsort`), `NaT` placed last; it is embedded as Mathlib
  insertion sort on the corresponding total preorder, which is stable.
* `df.groupby(id_repo)[created_at].diff()` gives each row the
  difference between its own timestamp and the timestamp of the
  previous row of the same `id_repo` group, `NaN` when either is
  missing or when there is no previous row; it is embedded by a fold
  that remembers the last timestamp seen for each repository id.
* Rational numbers stand for the Python floats; all quantities
  involved are exact (integer second counts and their ratios).
-/

/-- One row of the raw event CSV (headers `CSV_HEADERS` of
`data_collection.py`), with `created_at` already parsed. -/
structure RawRow where
  type_event : String
  id_actor : Int
  login_actor : String
  url_actor : String
  url_repo : String
  id_repo : Int
  name_repo : String
  action_payload : Option String
  created_at : Option Int
deriving DecidableEq, Repr

/-- One row of the cleaned table: a `RawRow` plus the `time_diff`
column added by `clean_data`. -/
structure CleanRow extends RawRow where
  time_diff : Option Int
deriving DecidableEq, Repr

/-- Comparison used for the `created_at` sort key: ordinary order on
present timestamps, missing timestamps (`NaT`) sorted last
(`na_position = last`, the pandas default). -/
def tsLE : Option Int → Option Int → Bool
  | some a, some b => decide (a ≤ b)
  | some _, none => true
  | none, some _ => false
  | none, none => true

/-- The lexicographic `(id_repo, created_at)` sort key of
`df.sort_values(by := [id_repo, created_at])`. -/
def rowLE (a b : RawRow) : Prop :=
  a.id_repo < b.id_repo ∨ (a.id_repo = b.id_repo ∧ tsLE a.created_at b.created_at = true)

instance : DecidableRel rowLE := fun a b => by
  unfold rowLE; exact inferInstance

theorem tsLE_refl (x : Option Int) : tsLE x x = true := by
  cases x <;> simp [tsLE]

theorem tsLE_total (x y : Option Int) : tsLE x y = true ∨ tsLE y x = true := by
  cases x <;> cases y <;> simp [tsLE]
  omega

theorem tsLE_trans {x y z : Option Int} (h1 : tsLE x y = true) (h2 : tsLE y z = true) :
    tsLE x z = true := by
  cases x <;> cases y <;> cases z <;> simp_all [tsLE]
  omega

instance : IsTotal RawRow rowLE := by
  constructor
  intro a b
  rcases lt_trichotomy a.id_repo b.id_repo with h | h | h
  · exact Or.inl (Or.inl h)
  · rcases tsLE_total a.created_at b.created_at with ht | ht
    · exact Or.inl (Or.inr ⟨h, ht⟩)
    · exact Or.inr (Or.inr ⟨h.symm, ht⟩)
  · exact Or.inr (Or.inl h)

instance : IsTrans RawRow rowLE := by
  constructor
  intro a b c hab hbc
  rcases hab with h1 | ⟨e1, t1⟩
  · rcases hbc with h2 | ⟨e2, _⟩
    · exact Or.inl (h1.trans h2)
    · exact Or.inl (e2 ▸ h1)
  · rcases hbc with h2 | ⟨e2, t2⟩
    · exact Or.inl (e1 ▸ h2)
    · exact Or.inr ⟨e1.trans e2, tsLE_trans t1 t2⟩

/-- The sorting step of `clean_data`:
`df.sort_values(by := [id_repo, created_at])`, a stable sort on the
lexicographic key (pandas uses a stable lexicographic sort for
multi-column keys). -/
def sortStep (l : List RawRow) : List RawRow :=
  List.insertionSort rowLE l

/-- Subtraction of optional timestamps: defined only when both are
present, mirroring `NaT`/`NaN` propagation of the pandas difference. -/
def optSub : Option Int → Option Int → Option Int
  | some c, some p => some (c - p)
  | _, _ => none

/-- Timestamp of the most recent previously seen row of repository
`i`, given the association list of `(id_repo, created_at)` pairs seen
so far (most recent first). `none` both when the repository has no
previous row and when its previous timestamp was missing; the two
cases behave identically in `groupby(...).diff()`. -/
def lastSeen (i : Int) : List (Int × Option Int) → Option Int
  | [] => none
  | (j, t) :: rest => if i = j then t else lastSeen i rest

/-- Worker for the `time_diff` column: walks the (sorted) rows keeping
the last timestamp seen per repository id, giving each row
`created_at − (previous created_at of the same id_repo)`. This is
`df.groupby(id_repo)[created_at].diff().dt.total_seconds()`. -/
def diffGo : List (Int × Option Int) → List RawRow → List CleanRow
  | _, [] => []
  | seen, r :: rs =>
    { toRawRow := r, time_diff := optSub r.created_at (lastSeen r.id_repo seen) } ::
      diffGo ((r.id_repo, r.created_at) :: seen) rs

/-- The `time_diff` step of `clean_data`. -/
def diffStep (l : List RawRow) : List CleanRow :=
  diffGo [] l

/-- The row-wise relabeling rule of `clean_data`: a `WatchEvent` whose
payload action is `started` becomes a `StarEvent`; every other row is
unchanged. -/
def relabelRaw (r : RawRow) : RawRow :=
  if r.type_event = "WatchEvent" ∧ r.action_payload = some ("started") then
    { r with type_event := "StarEvent" }
  else r

/-- The same relabeling rule on a cleaned row (`clean_data` applies it
after the `time_diff` computation). -/
def relabelClean (r : CleanRow) : CleanRow :=
  if r.type_event = "WatchEvent" ∧ r.action_payload = some ("started") then
    { r with toRawRow := { r.toRawRow with type_event := "StarEvent" } }
  else r

/-- The relabeling step of `clean_data` on the whole table. -/
def relabelStep (l : List CleanRow) : List CleanRow :=
  l.map relabelClean

/-- Embeds `clean_data` of `data_collection.py`: sort by
`(id_repo, created_at)`, add the per-repository `time_diff` column,
then relabel `WatchEvent`/`started` rows as `StarEvent`. (Timestamp
parsing is modelled by the `Option Int` timestamps of the input; the
function performs no bot filtering: no such statement appears in its
body, although its documentation announces one.) -/
def clean_data (l : List RawRow) : List CleanRow :=
  relabelStep (diffStep (sortStep l))

/-!
Embedding of `process_mining.py`.

The directly-follows graph of a case is computed by PM4Py on the
chronologically sorted activity sequence of the case; it maps each
ordered pair of consecutive activity names to its occurrence count.
The metric functions below take that sorted activity sequence
(a list of activity names).
-/

/-- The list of consecutive ordered pairs of a sequence of activity
names: the directly-follows relation with multiplicity. -/
def dfgPairs : List String → List (String × String)
  | [] => []
  | [_] => []
  | a :: b :: rest => (a, b) :: dfgPairs (b :: rest)

/-- The edge set of the directly-follows graph: the distinct
consecutive pairs (the keys of the PM4Py frequency dictionary). -/
def dfgEdges (acts : List String) : Finset (String × String) :=
  (dfgPairs acts).toFinset

/-- The node set of the directly-follows graph: every activity
appearing as source or target of an edge (line computing `num_nodi`
of `extract_dfg_metrics`). -/
def dfgNodes (acts : List String) : Finset String :=
  (dfgEdges acts).image Prod.fst ∪ (dfgEdges acts).image Prod.snd

/-- The `num_nodi` metric of `extract_dfg_metrics`. -/
def num_nodi (acts : List String) : Nat :=
  (dfgNodes acts).card

/-- The `num_archi` metric of `extract_dfg_metrics`, `len(dfg)`. -/
def num_archi (acts : List String) : Nat :=
  (dfgEdges acts).card

/-- The density of `extract_dfg_metrics`:
`num_archi / (num_nodi * (num_nodi - 1)) if num_nodi > 1 else 0`. -/
def densita_dfg (acts : List String) : ℚ :=
  if 1 < num_nodi acts then
    (num_archi acts : ℚ) / ((num_nodi acts * (num_nodi acts - 1) : Nat) : ℚ)
  else 0

/-- The dictionary returned by `extract_dfg_metrics`. -/
structure DfgMetrics where
  num_nodi : Nat
  num_archi : Nat
  densita_dfg : ℚ
deriving DecidableEq, Repr

/-- Embeds `extract_dfg_metrics` of `process_mining.py`, as a function of the
chronologically sorted activity sequence of the case. -/
def extract_dfg_metrics (acts : List String) : DfgMetrics :=
  { num_nodi := num_nodi acts, num_archi := num_archi acts,
    densita_dfg := densita_dfg acts }

/-- Order on `(timestamp, activity)` pairs used where the log is
sorted by its timestamp column. -/
def tsPairLE (a b : Option Int × String) : Prop :=
  tsLE a.1 b.1 = true

instance : DecidableRel tsPairLE := fun a b => by
  unfold tsPairLE; exact inferInstance

/-- Forward differences of a timestamp sequence
(`log[timestamp].diff()` without its leading `NaN`). -/
def consecDiffs : List (Option Int) → List (Option Int)
  | [] => []
  | [_] => []
  | a :: b :: rest => optSub b a :: consecDiffs (b :: rest)

/-- The dictionary returned by `extract_features_from_log`. -/
structure MlFeatures where
  percentuale_StarEvent : ℚ
  tempo_medio_eventi : ℚ
deriving DecidableEq, Repr

/-- Embeds `extract_features_from_log` of `process_mining.py`. The log is a
list of `(timestamp, activity)` pairs; the function sorts it by
timestamp, then returns the relative frequency of `StarEvent`
(`value_counts(normalize := True).get(StarEvent, 0)`) and the mean of
the forward timestamp differences (`diff().mean()`, `NaN` entries
skipped), 0 when the log has at most one event. -/
def extract_features_from_log (log : List (Option Int × String)) : MlFeatures :=
  { percentuale_StarEvent :=
      ((((List.insertionSort tsPairLE log).map Prod.snd).count ("StarEvent") : Nat) : ℚ)
        / (log.length : ℚ),
    tempo_medio_eventi :=
      if 1 < log.length then
        let vs := (consecDiffs ((List.insertionSort tsPairLE log).map Prod.fst)).filterMap id
        ((vs.sum : Int) : ℚ) / (vs.length : ℚ)
      else 0 }

/-- Deduplication keeping the first occurrence of each name, the order
in which `pandas.unique` reports values. -/
def firstSeenGo (seen : List String) : List String → List String
  | [] => []
  | x :: xs => if seen.contains x then firstSeenGo seen xs else x :: firstSeenGo (x :: seen) xs

/-- First-occurrence deduplication of a list of names. -/
def firstSeen (l : List String) : List String :=
  firstSeenGo [] l

/-- Code-point lexicographic comparison of character lists, the order
Python uses on strings (a strict prefix sorts first). -/
def charsLE : List Char → List Char → Bool
  | [], _ => true
  | _ :: _, [] => false
  | a :: as, b :: bs => if a = b then charsLE as bs else decide (a < b)

/-- Lexicographic order on strings by code point. -/
def strLE (a b : String) : Prop :=
  charsLE a.data b.data = true

instance : DecidableRel strLE := fun a b => by
  unfold strLE; exact inferInstance

/-- The group keys of `data.groupby(name_repo)`: the distinct
repository names of the corpus, in ascending lexicographic order
(pandas sorts group keys by default). -/
def groupKeys (data : List CleanRow) : List String :=
  List.insertionSort strLE (firstSeen (data.map (fun r => r.name_repo)))

/-- The selection loop of `load_non_trending_repositories`: walk the
group keys in order; append each key not in the trending list; stop
as soon as the accumulated list reaches `maxr` entries (the length
check runs after the conditional append, exactly as in the source). -/
def selectGo (trending : List String) (maxr : Nat) : List String → List String → List String
  | acc, [] => acc
  | acc, k :: ks =>
    let acc2 := if trending.contains k then acc else acc ++ [k]
    if maxr ≤ acc2.length then acc2 else selectGo trending maxr acc2 ks

/-- Embeds `load_non_trending_repositories` of `process_mining.py`:
at most `len(trending_repos)` repository names of the corpus that are
not trending, taken in the order of the group keys. -/
def load_non_trending_repositories (data : List CleanRow) (trending : List String) : List String :=
  selectGo trending trending.length [] (groupKeys data)

/-- Embeds `load_trending_repositories` of `process_mining.py`. The input
models the `repository` column of the trending CSV: `none` when the
file is unreadable or the column is missing (any exception reaches the
handler and the process exits with an error), `some col` the column
with possible nulls. The function drops nulls, deduplicates keeping
first occurrences (`dropna().unique().tolist()`), and errors out when
the resulting list is empty (in the source this branch trips over an
undefined name, raising an exception that the handler turns into the
same `exit(1)`). -/
def load_trending_repositories (input : Option (List (Option String))) :
    Except String (List String) :=
  match input with
  | none => Except.error ("unreadable trending file or missing repository column")
  | some col =>
    let repos := firstSeen (col.filterMap id)
    if repos.isEmpty then Except.error ("no repository found in trending file")
    else Except.ok repos

/-- The Log Builder step of `generate_process_models_and_features`:
the corpus rows of one repository, projected to their
`(time:timestamp, concept:name)` columns. -/
def build_case (dati : List CleanRow) (repo : String) : List (Option Int × String) :=
  (dati.filter (fun r => r.name_repo == repo)).map (fun r => (r.created_at, r.type_event))

/-- One row of the feature dataset. -/
structure FeatureRow where
  repo_name : String
  virale : Bool
  num_nodi : Nat
  num_archi : Nat
  densita_dfg : ℚ
  percentuale_StarEvent : ℚ
  tempo_medio_eventi : ℚ
deriving DecidableEq, Repr

/-- Embeds `generate_process_models_and_features` of `process_mining.py`,
without its rendering side effect. For each selected repository name,
its case is built; empty cases are skipped; the DFG metrics are
computed on the chronologically sorted activity sequence of the case
and the machine-learning features on the case log. The run date that
the source reads from the wall clock is a parameter `date_str`. -/
def generate_process_models_and_features (dati : List CleanRow)
    (virali nonVirali : List String) (date_str : String) : List FeatureRow :=
  (virali ++ nonVirali).filterMap (fun repo =>
    let caseLog := build_case dati repo
    if caseLog.isEmpty then none
    else
      let acts := (List.insertionSort tsPairLE caseLog).map Prod.snd
      let m := extract_dfg_metrics acts
      let f := extract_features_from_log caseLog
      some { repo_name := repo ++ "_" ++ date_str, virale := virali.contains repo,
             num_nodi := m.num_nodi, num_archi := m.num_archi,
             densita_dfg := m.densita_dfg,
             percentuale_StarEvent := f.percentuale_StarEvent,
             tempo_medio_eventi := f.tempo_medio_eventi })

/-- The Feature Dataset Accumulator of `main` in `process_mining.py`:
when a persisted feature table exists it is loaded and the new rows
are appended after it (`pd.concat([df_existing, df_features])`);
otherwise the new rows alone form the table. -/
def accumulate (existing : Option (List FeatureRow)) (fresh : List FeatureRow) :
    List FeatureRow :=
  match existing with
  | some old => old ++ fresh
  | none => fresh

/-- Embeds `main` of `process_mining.py` from the point where the cleaned
corpus is in memory: load the trending list (aborting the run on a
trending-configuration error, before any case is built), select the
non-trending control group, generate the per-repository feature rows,
and append them to the persisted feature table. -/
def pipeline_main (cleaned : List CleanRow) (trendingInput : Option (List (Option String)))
    (existing : Option (List FeatureRow)) (date_str : String) :
    Except String (List FeatureRow) :=
  match load_trending_repositories trendingInput with
  | Except.error e => Except.error e
  | Except.ok virali =>
    let nonVirali := load_non_trending_repositories cleaned virali
    Except.ok (accumulate existing
      (generate_process_models_and_features cleaned virali nonVirali date_str))

/-- Helper building a raw event row with fixed actor id and urls. -/
def mkRow (te : String) (ap : Option String) (t : Option Int) (repo : String)
    (actor : String) : RawRow :=
  { type_event := te, id_actor := 1, login_actor := actor, url_actor := "ua",
    url_repo := "ur", id_repo := 7, name_repo := repo, action_payload := ap,
    created_at := t }

/-- A row whose actor identity indicates a bot. -/
def c1BotRow : RawRow :=
  mkRow ("PushEvent") none (some 0) ("R") ("github-actions[bot]")

/-- The 3-event scenario input of the spec: one repository, events at
seconds 0, 10, 30. -/
def c10input : List RawRow :=
  [mkRow ("WatchEvent") (some ("started")) (some 0) ("R") ("u"),
   mkRow ("PushEvent") none (some 10) ("R") ("u"),
   mkRow ("WatchEvent") (some ("started")) (some 30) ("R") ("u")]

/-- The case of repository `R` built from the normalized scenario
corpus. -/
def c10case : List (Option Int × String) :=
  build_case (clean_data c10input) ("R")

/-- The chronologically sorted activity sequence of the scenario case. -/
def c10acts : List String :=
  (List.insertionSort tsPairLE c10case).map Prod.snd

theorem relabelClean_idem (r : CleanRow) :
    relabelClean (relabelClean r) = relabelClean r := by
  unfold relabelClean
  by_cases h : r.type_event = "WatchEvent" ∧ r.action_payload = some ("started")
  · rw [if_pos h, if_neg]
    intro hc
    simp at hc
  · rw [if_neg h, if_neg h]

/-- C5: the StarEvent relabeling of `clean_data` is idempotent: a
second application of the relabeling step leaves the table unchanged,
since a relabeled row no longer matches the `WatchEvent` condition. -/
theorem c5_relabel_idempotent (l : List CleanRow) :
    relabelStep (relabelStep l) = relabelStep l := by
  unfold relabelStep
  rw [List.map_map]
  congr 1
  funext r
  exact relabelClean_idem r

/-- C9: the Feature Dataset Accumulator is append-only: with an
existing table of `old` rows and `fresh` new rows, the persisted
table has exactly `old.length + fresh.length` rows, the prior rows
first and unchanged, the new rows after them, and with no existing
table the result is exactly the new rows. -/
theorem c9_accumulator_append_only (old fresh : List FeatureRow) :
    (accumulate (some old) fresh).length = old.length + fresh.length ∧
    (accumulate (some old) fresh).take old.length = old ∧
    (accumulate (some old) fresh).drop old.length = fresh ∧
    accumulate none fresh = fresh := by
  refine ⟨?_, ?_, ?_, rfl⟩ <;> simp [accumulate]

/-- C1 (divergence witness): `clean_data` performs no bot filtering:
a row whose actor login is a bot identity passes through to the
output unchanged in count, although the documentation of the function
announces that bot actors are excluded. -/
theorem c1_bot_row_not_filtered :
    (clean_data [c1BotRow]).map (fun c => c.login_actor) = ["github-actions[bot]"] ∧
    (clean_data [c1BotRow]).length = 1 := by decide

/-- The activity sequence refuting the density bound: consecutive
repetitions produce self-loop edges, so a two-node graph can carry
four distinct edges. -/
def c2CexActs : List String :=
  ["PushEvent", "PushEvent", "StarEvent", "StarEvent", "PushEvent"]

/-- C2 (counterexample): a sequence with `num_nodi = 2 > 1` whose
density is 2, outside the claimed interval `[0, 1]`: the
directly-follows graph admits self-loop edges, so `num_archi` can
exceed `num_nodi * (num_nodi - 1)`. -/
theorem c2_counterexample :
    1 < (extract_dfg_metrics c2CexActs).num_nodi ∧
    ¬ (extract_dfg_metrics c2CexActs).densita_dfg ≤ 1 := by
  have hn : num_nodi c2CexActs = 2 := by decide
  have ha : num_archi c2CexActs = 4 := by decide
  constructor
  · show 1 < num_nodi c2CexActs
    omega
  · show ¬ densita_dfg c2CexActs ≤ 1
    unfold densita_dfg
    rw [hn, ha]
    norm_num

theorem mem_dfgNodes_of_mem_edges {acts : List String} {p : String × String}
    (h : p ∈ dfgEdges acts) : p.1 ∈ dfgNodes acts ∧ p.2 ∈ dfgNodes acts :=
  ⟨Finset.mem_union_left _ (Finset.mem_image_of_mem _ h),
   Finset.mem_union_right _ (Finset.mem_image_of_mem _ h)⟩

theorem num_archi_le_sq (acts : List String) :
    num_archi acts ≤ num_nodi acts * num_nodi acts := by
  unfold num_archi num_nodi
  calc (dfgEdges acts).card
      ≤ ((dfgNodes acts) ×ˢ (dfgNodes acts)).card := by
        apply Finset.card_le_card
        intro p hp
        rcases mem_dfgNodes_of_mem_edges hp with ⟨h1, h2⟩
        exact Finset.mem_product.mpr ⟨h1, h2⟩
    _ = (dfgNodes acts).card * (dfgNodes acts).card := Finset.card_product _ _

theorem num_archi_le_offDiag (acts : List String)
    (h : ∀ p ∈ dfgEdges acts, p.1 ≠ p.2) :
    num_archi acts ≤ num_nodi acts * num_nodi acts - num_nodi acts := by
  unfold num_archi num_nodi
  calc (dfgEdges acts).card
      ≤ (dfgNodes acts).offDiag.card := by
        apply Finset.card_le_card
        intro p hp
        rcases mem_dfgNodes_of_mem_edges hp with ⟨h1, h2⟩
        exact Finset.mem_offDiag.mpr ⟨h1, h2, h p hp⟩
    _ = (dfgNodes acts).card * (dfgNodes acts).card - (dfgNodes acts).card :=
        Finset.offDiag_card _

/-- C2 (amended): for every activity sequence the density is
nonnegative; it is 0 when `num_nodi ≤ 1`; when `num_nodi > 1` it is
at most `num_nodi / (num_nodi − 1)` (it can exceed 1, as self-loop
edges are counted against a denominator that excludes them); and it
lies in `[0, 1]` whenever the graph has no self-loop edge. -/
theorem c2_amended_density_bounds (acts : List String) :
    0 ≤ densita_dfg acts ∧
    (num_nodi acts ≤ 1 → densita_dfg acts = 0) ∧
    (1 < num_nodi acts →
      densita_dfg acts ≤ (num_nodi acts : ℚ) / ((num_nodi acts : ℚ) - 1)) ∧
    ((∀ p ∈ dfgEdges acts, p.1 ≠ p.2) → densita_dfg acts ≤ 1) := by
  refine ⟨?_, ?_, ?_, ?_⟩
  · unfold densita_dfg
    split
    · exact div_nonneg (Nat.cast_nonneg _) (Nat.cast_nonneg _)
    · exact le_refl 0
  · intro h
    unfold densita_dfg
    rw [if_neg (not_lt.mpr h)]
  · intro h
    unfold densita_dfg
    rw [if_pos h]
    have h1 : 1 ≤ num_nodi acts := le_of_lt h
    have hD : ((num_nodi acts * (num_nodi acts - 1) : Nat) : ℚ)
        = (num_nodi acts : ℚ) * ((num_nodi acts : ℚ) - 1) := by
      push_cast [Nat.cast_sub h1]
      ring
    have hn : (1 : ℚ) < (num_nodi acts : ℚ) := by exact_mod_cast h
    have hpos : (0 : ℚ) < (num_nodi acts : ℚ) * ((num_nodi acts : ℚ) - 1) := by
      apply mul_pos <;> linarith
    have ha : (num_archi acts : ℚ) ≤ (num_nodi acts : ℚ) * (num_nodi acts : ℚ) := by
      exact_mod_cast num_archi_le_sq acts
    rw [hD]
    have hne : (num_nodi acts : ℚ) ≠ 0 := by linarith
    calc (num_archi acts : ℚ) / ((num_nodi acts : ℚ) * ((num_nodi acts : ℚ) - 1))
        ≤ ((num_nodi acts : ℚ) * (num_nodi acts : ℚ))
            / ((num_nodi acts : ℚ) * ((num_nodi acts : ℚ) - 1)) :=
          (div_le_div_iff_of_pos_right hpos).mpr ha
      _ = (num_nodi acts : ℚ) / ((num_nodi acts : ℚ) - 1) :=
          mul_div_mul_left _ _ hne
  · intro hloop
    by_cases h : 1 < num_nodi acts
    · unfold densita_dfg
      rw [if_pos h]
      have h1 : 1 ≤ num_nodi acts := le_of_lt h
      have hD : ((num_nodi acts * (num_nodi acts - 1) : Nat) : ℚ)
          = (num_nodi acts : ℚ) * ((num_nodi acts : ℚ) - 1) := by
        push_cast [Nat.cast_sub h1]
        ring
      have hn : (1 : ℚ) < (num_nodi acts : ℚ) := by exact_mod_cast h
      have hpos : (0 : ℚ) < (num_nodi acts : ℚ) * ((num_nodi acts : ℚ) - 1) := by
        apply mul_pos <;> linarith
      have hsub : num_nodi acts ≤ num_nodi acts * num_nodi acts :=
        Nat.le_mul_of_pos_left _ (by omega)
      have ha : (num_archi acts : ℚ)
          ≤ (num_nodi acts : ℚ) * (num_nodi acts : ℚ) - (num_nodi acts : ℚ) := by
        have := num_archi_le_offDiag acts hloop
        have hc : ((num_nodi acts * num_nodi acts - num_nodi acts : Nat) : ℚ)
            = (num_nodi acts : ℚ) * (num_nodi acts : ℚ) - (num_nodi acts : ℚ) := by
          push_cast [Nat.cast_sub hsub]
          ring
        calc (num_archi acts : ℚ)
            ≤ ((num_nodi acts * num_nodi acts - num_nodi acts : Nat) : ℚ) := by
              exact_mod_cast this
          _ = _ := hc
      rw [hD]
      rw [div_le_one hpos]
      nlinarith
    · unfold densita_dfg
      rw [if_neg h]
      exact zero_le_one

/-- A two-activity sequence without self-loop edges, for the amended
density bounds. -/
def c2WitActs : List String := ["PushEvent", "StarEvent"]

/-- A sequence whose graph has a single node, for the degenerate
density case. -/
def c2WitSingle : List String := ["PushEvent", "PushEvent"]

/-- Witness instantiating the amended density bounds at concrete
sequences, discharging every hypothesis. -/
theorem c2_amended_density_bounds_witness :
    0 ≤ densita_dfg c2WitActs ∧ densita_dfg c2WitSingle = 0 ∧
    densita_dfg c2WitActs ≤ (num_nodi c2WitActs : ℚ) / ((num_nodi c2WitActs : ℚ) - 1) ∧
    densita_dfg c2WitActs ≤ 1 :=
  ⟨(c2_amended_density_bounds c2WitActs).1,
   (c2_amended_density_bounds c2WitSingle).2.1 (by decide),
   (c2_amended_density_bounds c2WitActs).2.2.1 (by decide),
   (c2_amended_density_bounds c2WitActs).2.2.2 (by decide)⟩

/-- C10: the 3-event scenario: after normalization the activity types
are `[StarEvent, PushEvent, StarEvent]`; the DFG has exactly the two
edges `(StarEvent, PushEvent)` and `(PushEvent, StarEvent)`, each
with occurrence count 1; `num_nodi = 2`, `num_archi = 2`, density 1;
the `StarEvent` share is 2/3 and the mean inter-event time is 15
seconds. -/
theorem c10_scenario :
    (clean_data c10input).map (fun c => c.type_event) = ["StarEvent", "PushEvent", "StarEvent"] ∧
    dfgEdges c10acts = {("StarEvent", "PushEvent"), ("PushEvent", "StarEvent")} ∧
    (dfgPairs c10acts).count (("StarEvent", "PushEvent")) = 1 ∧
    (dfgPairs c10acts).count (("PushEvent", "StarEvent")) = 1 ∧
    (extract_dfg_metrics c10acts).num_nodi = 2 ∧
    (extract_dfg_metrics c10acts).num_archi = 2 ∧
    (extract_dfg_metrics c10acts).densita_dfg = 1 ∧
    (extract_features_from_log c10case).percentuale_StarEvent = 2 / 3 ∧
    (extract_features_from_log c10case).tempo_medio_eventi = 15 := by
  refine ⟨by decide, by decide, by decide, by decide, by decide, by decide, ?_, ?_, ?_⟩
  · show densita_dfg c10acts = 1
    have hn : num_nodi c10acts = 2 := by decide
    have ha : num_archi c10acts = 2 := by decide
    unfold densita_dfg
    rw [hn, ha]
    norm_num
  · show ((((List.insertionSort tsPairLE c10case).map Prod.snd).count ("StarEvent") : Nat) : ℚ)
        / (c10case.length : ℚ) = 2 / 3
    have hc : ((List.insertionSort tsPairLE c10case).map Prod.snd).count ("StarEvent") = 2 := by
      decide
    have hl : c10case.length = 3 := by decide
    rw [hc, hl]
    norm_num
  · show (if 1 < c10case.length then
        let vs := (consecDiffs ((List.insertionSort tsPairLE c10case).map Prod.fst)).filterMap id
        ((vs.sum : Int) : ℚ) / (vs.length : ℚ)
      else 0) = 15
    have hv : (consecDiffs ((List.insertionSort tsPairLE c10case).map Prod.fst)).filterMap id
        = [10, 20] := by decide
    rw [if_pos (by decide : 1 < c10case.length), hv]
    norm_num

theorem charsLE_total : ∀ as bs : List Char, charsLE as bs = true ∨ charsLE bs as = true
  | [], _ => by simp [charsLE]
  | _ :: _, [] => by simp [charsLE]
  | a :: as, b :: bs => by
    by_cases hab : a = b
    · subst hab
      simpa [charsLE] using charsLE_total as bs
    · rcases lt_or_gt_of_ne hab with hlt | hgt
      · left
        simp [charsLE, hab, hlt]
      · right
        simp [charsLE, Ne.symm hab, hgt]

theorem charsLE_trans :
    ∀ as bs cs : List Char,
      charsLE as bs = true → charsLE bs cs = true → charsLE as cs = true
  | [], _, _ => by simp [charsLE]
  | _ :: _, [], _ => by simp [charsLE]
  | _ :: _, _ :: _, [] => by simp [charsLE]
  | a :: as, b :: bs, c :: cs => by
    by_cases hab : a = b <;> by_cases hbc : b = c
    · subst hab; subst hbc
      simpa [charsLE] using charsLE_trans as bs cs
    · subst hab
      simp [charsLE, hbc]
    · subst hbc
      simp only [charsLE, if_neg hab, decide_eq_true_eq]
      exact fun h1 _ => h1
    · simp only [charsLE, if_neg hab, if_neg hbc, decide_eq_true_eq]
      intro h1 h2
      have hac : a < c := lt_trans h1 h2
      rw [if_neg (ne_of_lt hac)]
      simpa using hac

instance : IsTotal String strLE :=
  ⟨fun a b => charsLE_total a.data b.data⟩

instance : IsTrans String strLE :=
  ⟨fun _ _ _ h1 h2 => charsLE_trans _ _ _ h1 h2⟩

theorem mem_firstSeenGo {x : String} :
    ∀ (seen l : List String), x ∈ firstSeenGo seen l → x ∈ l := by
  intro seen l
  induction l generalizing seen with
  | nil => simp [firstSeenGo]
  | cons y ys ih =>
    intro h
    unfold firstSeenGo at h
    split at h
    · exact List.mem_cons_of_mem y (ih _ h)
    · rcases List.mem_cons.mp h with h | h
      · exact h ▸ List.mem_cons_self x ys
      · exact List.mem_cons_of_mem y (ih _ h)

theorem mem_groupKeys {x : String} {data : List CleanRow} (h : x ∈ groupKeys data) :
    x ∈ data.map (fun r => r.name_repo) := by
  unfold groupKeys at h
  have h2 := (List.perm_insertionSort strLE _).mem_iff.mp h
  exact mem_firstSeenGo _ _ h2

/-- The selection loop collects, in key order, the first eligible
keys until the bound is reached: as long as the accumulator is below
the bound, the result is the accumulator followed by the prefix of
the eligible keys that fills it up to the bound. -/
theorem selectGo_eq (trending : List String) (maxr : Nat) :
    ∀ (ks acc : List String), acc.length < maxr →
      selectGo trending maxr acc ks
        = acc ++ (ks.filter (fun k => !(trending.contains k))).take (maxr - acc.length) := by
  intro ks
  induction ks with
  | nil => intro acc _; simp [selectGo]
  | cons k ks ih =>
    intro acc h
    unfold selectGo
    by_cases hk : k ∈ trending
    · rw [if_pos (show trending.contains k = true by simpa using hk)]
      rw [if_neg (by omega : ¬ maxr ≤ acc.length)]
      rw [ih acc h]
      simp [List.filter_cons, hk]
    · rw [if_neg (show ¬ trending.contains k = true by simpa using hk)]
      by_cases hm : maxr ≤ acc.length + 1
      · rw [if_pos (by simp only [List.length_append, List.length_singleton]; omega)]
        have ht : maxr - acc.length = 1 := by omega
        simp [List.filter_cons, hk, ht]
      · rw [if_neg (by simp only [List.length_append, List.length_singleton]; omega)]
        rw [ih (acc ++ [k]) (by simp only [List.length_append, List.length_singleton]; omega)]
        have ht : maxr - acc.length = (maxr - (acc.length + 1)) + 1 := by omega
        simp [List.filter_cons, hk, ht, List.take_succ_cons]

/-- The selector in closed form: the first `len(trending)` eligible
group keys, in group-key order. -/
theorem load_non_trending_eq (data : List CleanRow) (trending : List String)
    (h : trending ≠ []) :
    load_non_trending_repositories data trending
      = ((groupKeys data).filter (fun k => !(trending.contains k))).take trending.length := by
  unfold load_non_trending_repositories
  rw [selectGo_eq trending trending.length (groupKeys data) []
    (by simpa using List.length_pos.mpr h)]
  simp

/-- C6: for a non-empty viral list, the selector returns only
repositories present in the corpus and absent from the viral list;
its length equals the viral-list length whenever at least that many
eligible repositories exist, and equals the (strictly smaller)
eligible count otherwise — in particular no error occurs. -/
theorem c6_selector_balanced (data : List CleanRow) (trending : List String)
    (h : trending ≠ []) :
    (∀ n ∈ load_non_trending_repositories data trending,
        n ∈ data.map (fun r => r.name_repo) ∧ n ∉ trending) ∧
    (trending.length ≤ ((groupKeys data).filter (fun k => !(trending.contains k))).length →
      (load_non_trending_repositories data trending).length = trending.length) ∧
    (((groupKeys data).filter (fun k => !(trending.contains k))).length < trending.length →
      (load_non_trending_repositories data trending).length
          = ((groupKeys data).filter (fun k => !(trending.contains k))).length ∧
        (load_non_trending_repositories data trending).length < trending.length) := by
  rw [load_non_trending_eq data trending h]
  refine ⟨?_, ?_, ?_⟩
  · intro n hn
    have hf := List.mem_of_mem_take hn
    have hm := List.mem_filter.mp hf
    refine ⟨mem_groupKeys hm.1, ?_⟩
    simpa using hm.2
  · intro hle
    rw [List.length_take]
    omega
  · intro hlt
    rw [List.length_take]
    omega

/-- Corpus for the selector witnesses: two repositories named `aaa`
and `bbb`, the latter encountered first. -/
def c7Data : List CleanRow :=
  [{ toRawRow := mkRow ("PushEvent") none (some 0) ("bbb") ("u"), time_diff := none },
   { toRawRow := mkRow ("PushEvent") none (some 5) ("aaa") ("u"), time_diff := none }]

/-- Witness instantiating the selector properties at a concrete
corpus, discharging every hypothesis. -/
theorem c6_selector_balanced_witness :
    (("aaa" : String) ∈ c7Data.map (fun r => r.name_repo) ∧ ("aaa" : String) ∉ ["vvv"]) ∧
    (load_non_trending_repositories c7Data ["vvv"]).length = 1 ∧
    (load_non_trending_repositories c7Data ["vvv", "www", "aaa"]).length = 1 ∧
    (load_non_trending_repositories c7Data ["vvv", "www", "aaa"]).length < 3 :=
  ⟨(c6_selector_balanced c7Data ["vvv"] (by decide)).1 ("aaa") (by decide),
   (c6_selector_balanced c7Data ["vvv"] (by decide)).2.1 (by decide),
   ((c6_selector_balanced c7Data ["vvv", "www", "aaa"] (by decide)).2.2 (by decide)).1,
   ((c6_selector_balanced c7Data ["vvv", "www", "aaa"] (by decide)).2.2 (by decide)).2⟩

/-- Definition following the words of the spec, for comparison with
the implemented selector: the eligible (non-viral) repository
identifiers in order of their first occurrence in the corpus,
truncated to the viral-list length. -/
def selectorSpecFirstEncounter (data : List CleanRow) (trending : List String) : List String :=
  ((firstSeen (data.map (fun r => r.name_repo))).filter
    (fun k => !(trending.contains k))).take trending.length

/-- C7 (counterexample): on a corpus whose first-encountered
repository is `bbb` while `aaa` appears later, the selector returns
`aaa` first (pandas group keys are reported in sorted order), not the
first-encountered `bbb` that the claim demands. -/
theorem c7_counterexample :
    load_non_trending_repositories c7Data ["vvv"] = ["aaa"] ∧
    selectorSpecFirstEncounter c7Data ["vvv"] = ["bbb"] ∧
    load_non_trending_repositories c7Data ["vvv"] ≠ selectorSpecFirstEncounter c7Data ["vvv"] := by
  refine ⟨by decide, by decide, by decide⟩

/-- C7 (amended): the selected non-viral repositories appear in
ascending lexicographic order of repository name: the result is the
prefix, of viral-list length, of the eligible repository identifiers
in sorted group-key order. -/
theorem c7_amended_sorted_order (data : List CleanRow) (trending : List String)
    (h : trending ≠ []) :
    load_non_trending_repositories data trending
      = ((groupKeys data).filter (fun k => !(trending.contains k))).take trending.length ∧
    (groupKeys data).Pairwise strLE :=
  ⟨load_non_trending_eq data trending h, by
    unfold groupKeys
    exact List.sorted_insertionSort strLE _⟩

/-- C8: when the trending input is unreadable, lacks the `repository`
column, or yields an empty repository list, the run terminates with
an error: `pipeline_main` returns the error before the selector, the
Log Builder or the feature extraction run, so no case is built and no
feature row is produced. -/
theorem c8_trending_error_aborts (cleaned : List CleanRow)
    (existing : Option (List FeatureRow)) (date_str : String)
    (input : Option (List (Option String)))
    (h : input = none ∨ ∃ col, input = some col ∧ col.filterMap id = []) :
    ∃ e, pipeline_main cleaned input existing date_str = Except.error e := by
  rcases h with h | ⟨col, hc, hempty⟩
  · subst h
    exact ⟨_, rfl⟩
  · subst hc
    refine ⟨"no repository found in trending file", ?_⟩
    simp [pipeline_main, load_trending_repositories, hempty, firstSeen, firstSeenGo]

/-- Witness instantiating the abort-on-bad-trending-input property at
both kinds of bad input. -/
theorem c8_trending_error_aborts_witness :
    (∃ e, pipeline_main [] none none ("d") = Except.error e) ∧
    (∃ e, pipeline_main [] (some [none]) none ("d") = Except.error e) :=
  ⟨c8_trending_error_aborts [] none ("d") none (Or.inl rfl),
   c8_trending_error_aborts [] none ("d") (some [none]) (Or.inr ⟨[none], rfl, rfl⟩)⟩

theorem relabelClean_toRawRow (c : CleanRow) :
    (relabelClean c).toRawRow = relabelRaw c.toRawRow := by
  unfold relabelClean relabelRaw
  by_cases h : c.type_event = "WatchEvent" ∧ c.action_payload = some ("started")
  · rw [if_pos h, if_pos h]
  · rw [if_neg h, if_neg h]

theorem relabelClean_id_repo (c : CleanRow) :
    (relabelClean c).toRawRow.id_repo = c.toRawRow.id_repo := by
  unfold relabelClean
  split <;> rfl

theorem relabelClean_created_at (c : CleanRow) :
    (relabelClean c).toRawRow.created_at = c.toRawRow.created_at := by
  unfold relabelClean
  split <;> rfl

theorem relabelClean_time_diff (c : CleanRow) :
    (relabelClean c).time_diff = c.time_diff := by
  unfold relabelClean
  split <;> rfl

/-- The per-group difference chain: the rows of one repository group
in order, each receiving its own timestamp minus the previous
timestamp of the chain (`prev` seeds the chain). `groupby.diff`
restricted to one group computes exactly this chain seeded with no
previous value. -/
def chainDiff : Option Int → List RawRow → List CleanRow
  | _, [] => []
  | prev, r :: rs =>
    { toRawRow := r, time_diff := optSub r.created_at prev } :: chainDiff r.created_at rs

theorem optSub_none (x : Option Int) : optSub x none = none := by
  cases x <;> rfl

theorem chainDiff_map_toRawRow : ∀ (prev : Option Int) (rs : List RawRow),
    (chainDiff prev rs).map (fun c => c.toRawRow) = rs
  | _, [] => rfl
  | prev, r :: rs => by
    simp [chainDiff, chainDiff_map_toRawRow r.created_at rs]

theorem diffGo_map_toRawRow : ∀ (rs : List RawRow) (seen : List (Int × Option Int)),
    (diffGo seen rs).map (fun c => c.toRawRow) = rs
  | [], _ => rfl
  | r :: rs, seen => by
    simp [diffGo, diffGo_map_toRawRow rs]

/-- Restricting the `time_diff` computation to one repository group
gives the difference chain of that group seeded with the last
timestamp already seen for it. -/
theorem diffGo_filter : ∀ (rs : List RawRow) (seen : List (Int × Option Int)) (i : Int),
    (diffGo seen rs).filter (fun c => c.id_repo == i)
      = chainDiff (lastSeen i seen) (rs.filter (fun r => r.id_repo == i))
  | [], _, _ => rfl
  | r :: rs, seen, i => by
    by_cases hr : r.id_repo = i
    · subst hr
      simp only [diffGo, List.filter_cons, beq_self_eq_true, if_pos]
      rw [diffGo_filter rs ((r.id_repo, r.created_at) :: seen) r.id_repo]
      simp [chainDiff, lastSeen]
    · have hb : (r.id_repo == i) = false := by simpa using hr
      simp only [diffGo, List.filter_cons, hb, Bool.false_eq_true, if_neg, not_false_eq_true]
      rw [diffGo_filter rs ((r.id_repo, r.created_at) :: seen) i]
      have hl : lastSeen i ((r.id_repo, r.created_at) :: seen) = lastSeen i seen := by
        show (if i = r.id_repo then r.created_at else lastSeen i seen) = lastSeen i seen
        rw [if_neg (fun h => hr h.symm)]
      rw [hl]

theorem chainDiff_head_time_diff : ∀ (prev : Option Int) (rs : List RawRow) (c : CleanRow),
    (chainDiff prev rs)[0]? = some c → c.time_diff = optSub c.created_at prev
  | _, [], c => by simp [chainDiff]
  | prev, r :: rs, c => by
    simp only [chainDiff, List.getElem?_cons_zero, Option.some.injEq]
    intro h
    subst h
    rfl

theorem chainDiff_succ_time_diff :
    ∀ (rs : List RawRow) (prev : Option Int) (k : Nat) (a b : CleanRow),
      (chainDiff prev rs)[k]? = some a → (chainDiff prev rs)[k + 1]? = some b →
      b.time_diff = optSub b.created_at a.created_at := by
  intro rs
  induction rs with
  | nil =>
    intro prev k a b ha _
    simp [chainDiff] at ha
  | cons r rs ih =>
    intro prev k a b ha hb
    cases k with
    | zero =>
      simp only [chainDiff, List.getElem?_cons_zero, Option.some.injEq] at ha
      simp only [chainDiff, List.getElem?_cons_succ] at hb
      subst ha
      exact chainDiff_head_time_diff r.created_at rs b hb
    | succ k2 =>
      simp only [chainDiff, List.getElem?_cons_succ] at ha hb
      exact ih r.created_at k2 a b ha hb

/-- The rows of the cleaned table belonging to one repository are the
relabeled difference chain of the sorted rows of that repository. -/
theorem clean_data_filter_eq (l : List RawRow) (i : Int) :
    (clean_data l).filter (fun c => c.id_repo == i)
      = (chainDiff none ((sortStep l).filter (fun r => r.id_repo == i))).map relabelClean := by
  unfold clean_data relabelStep diffStep
  rw [List.filter_map relabelClean (diffGo [] (sortStep l))]
  have hp : ((fun c : CleanRow => c.id_repo == i) ∘ relabelClean)
      = (fun c : CleanRow => c.id_repo == i) := by
    funext c
    simp [Function.comp, relabelClean_id_repo]
  rw [hp, diffGo_filter (sortStep l) [] i]
  rfl

/-- C3: in the table returned by `clean_data`, within each `id_repo`
group the `created_at` column is non-decreasing (missing timestamps
last), the first row of the group has a null `time_diff`, and every
later row has `time_diff` equal to its own `created_at` minus the
previous `created_at` of the group (null whenever either timestamp is
missing). -/
theorem c3_group_order_and_diff (l : List RawRow) (i : Int) :
    ((clean_data l).filter (fun c => c.id_repo == i)).Pairwise
        (fun a b => tsLE a.created_at b.created_at = true) ∧
    (∀ c, ((clean_data l).filter (fun c => c.id_repo == i))[0]? = some c →
      c.time_diff = none) ∧
    (∀ k a b, ((clean_data l).filter (fun c => c.id_repo == i))[k]? = some a →
      ((clean_data l).filter (fun c => c.id_repo == i))[k + 1]? = some b →
      b.time_diff = optSub b.created_at a.created_at) := by
  rw [clean_data_filter_eq l i]
  refine ⟨?_, ?_, ?_⟩
  · rw [List.pairwise_map]
    simp only [relabelClean_created_at]
    have h3 : ((sortStep l).filter (fun r => r.id_repo == i)).Pairwise
        (fun a b : RawRow => tsLE a.created_at b.created_at = true) := by
      have hs : (sortStep l).Pairwise rowLE := List.sorted_insertionSort rowLE l
      have hf : ((sortStep l).filter (fun r => r.id_repo == i)).Pairwise rowLE :=
        hs.filter _
      refine List.Pairwise.imp_of_mem ?_ hf
      intro a b ha hb hab
      have hai : a.id_repo = i := by simpa using List.of_mem_filter ha
      have hbi : b.id_repo = i := by simpa using List.of_mem_filter hb
      rcases hab with hlt | ⟨_, ht⟩
      · rw [hai, hbi] at hlt
        exact absurd hlt (lt_irrefl i)
      · exact ht
    have h2 := chainDiff_map_toRawRow none ((sortStep l).filter (fun r => r.id_repo == i))
    rw [← h2, List.pairwise_map] at h3
    exact h3
  · intro c hc
    rw [List.getElem?_map] at hc
    rcases Option.map_eq_some'.mp hc with ⟨c0, h0, hce⟩
    subst hce
    rw [relabelClean_time_diff]
    rw [chainDiff_head_time_diff none _ c0 h0]
    exact optSub_none _
  · intro k a b ha hb
    rw [List.getElem?_map] at ha hb
    rcases Option.map_eq_some'.mp ha with ⟨a0, ha0, hae⟩
    rcases Option.map_eq_some'.mp hb with ⟨b0, hb0, hbe⟩
    subst hae
    subst hbe
    rw [relabelClean_time_diff, relabelClean_created_at, relabelClean_created_at]
    exact chainDiff_succ_time_diff _ none k a0 b0 ha0 hb0

/-- First cleaned row of the witness group. -/
def c3WitRow0 : CleanRow :=
  { toRawRow := mkRow ("StarEvent") (some ("started")) (some 0) ("R") ("u"),
    time_diff := none }

/-- Second cleaned row of the witness group. -/
def c3WitRow1 : CleanRow :=
  { toRawRow := mkRow ("PushEvent") none (some 10) ("R") ("u"), time_diff := some 10 }

/-- Witness instantiating the group invariant on the scenario corpus,
discharging the indexed hypotheses at rows 0 and 1 of group 7. -/
theorem c3_group_order_and_diff_witness :
    ((clean_data c10input).filter (fun c => c.id_repo == (7 : Int))).Pairwise
        (fun a b => tsLE a.created_at b.created_at = true) ∧
    c3WitRow0.time_diff = none ∧
    c3WitRow1.time_diff = optSub c3WitRow1.created_at c3WitRow0.created_at :=
  ⟨(c3_group_order_and_diff c10input 7).1,
   (c3_group_order_and_diff c10input 7).2.1 c3WitRow0 (by decide),
   (c3_group_order_and_diff c10input 7).2.2 0 c3WitRow0 c3WitRow1 (by decide) (by decide)⟩

/-- Inserting an element of key class `P` into a list places it
before every later element of the same class: the class subsequence
gains the new element at the front. All keys of one class are related
both ways by the sort order, which is what `hk` captures. -/
theorem orderedInsert_filter_pos {α : Type} (r : α → α → Prop) [DecidableRel r]
    (P : α → Bool) (hk : ∀ a b, P a = true → P b = true → r a b)
    (a : α) (ha : P a = true) :
    ∀ l : List α, (List.orderedInsert r a l).filter P = a :: l.filter P
  | [] => by simp [List.orderedInsert, ha]
  | b :: l => by
    by_cases hr : r a b
    · simp [List.orderedInsert, if_pos hr, List.filter_cons, ha]
    · have hb : P b = false := by
        rcases Bool.eq_false_or_eq_true (P b) with h | h
        · exact absurd (hk a b ha h) hr
        · exact h
      simp [List.orderedInsert, if_neg hr, List.filter_cons, hb,
        orderedInsert_filter_pos r P hk a ha l]

theorem orderedInsert_filter_neg {α : Type} (r : α → α → Prop) [DecidableRel r]
    (P : α → Bool) (a : α) (ha : P a = false) :
    ∀ l : List α, (List.orderedInsert r a l).filter P = l.filter P
  | [] => by simp [List.orderedInsert, ha]
  | b :: l => by
    by_cases hr : r a b
    · simp [List.orderedInsert, if_pos hr, List.filter_cons, ha]
    · simp [List.orderedInsert, if_neg hr, List.filter_cons,
        orderedInsert_filter_neg r P a ha l]

/-- Stability of insertion sort on key classes: the subsequence of a
key class is unchanged by sorting, provided any two members of the
class are related by the sort order. -/
theorem insertionSort_filter {α : Type} (r : α → α → Prop) [DecidableRel r]
    (P : α → Bool) (hk : ∀ a b, P a = true → P b = true → r a b) :
    ∀ l : List α, (List.insertionSort r l).filter P = l.filter P
  | [] => rfl
  | a :: l => by
    by_cases ha : P a
    · rw [List.insertionSort, orderedInsert_filter_pos r P hk a ha _,
        insertionSort_filter r P hk l, List.filter_cons, if_pos ha]
    · have ha2 : P a = false := by simpa using ha
      rw [List.insertionSort, orderedInsert_filter_neg r P a ha2 _,
        insertionSort_filter r P hk l, List.filter_cons]
      rw [ha2]
      rfl

/-- Projecting the key-class subsequence of a cleaned table back to
its raw rows commutes with the projection of the whole table. -/
theorem filter_key_toRaw (i : Int) (t : Option Int) :
    ∀ D : List CleanRow,
      (D.filter (fun c => c.id_repo == i && c.created_at == t)).map (fun c => c.toRawRow)
        = (D.map (fun c => c.toRawRow)).filter (fun r => r.id_repo == i && r.created_at == t)
  | [] => rfl
  | c :: D => by
    by_cases h : (c.id_repo == i && c.created_at == t) = true
    · simp only [List.filter_cons, List.map_cons, h, if_pos, List.map_cons]
      rw [filter_key_toRaw i t D]
    · simp only [List.filter_cons, List.map_cons, h, if_neg, Bool.false_eq_true,
        not_false_eq_true]
      rw [filter_key_toRaw i t D]

/-- C4: the normalizer sort is stable on `(id_repo, created_at)` key
classes: for every key, the subsequence of output rows carrying that
key (projected back to raw rows) equals the subsequence of input rows
carrying that key, relabeled — equal-key rows keep their input
relative order through `clean_data`. -/
theorem c4_sort_stable (l : List RawRow) (i : Int) (t : Option Int) :
    ((clean_data l).filter (fun c => c.id_repo == i && c.created_at == t)).map
        (fun c => c.toRawRow)
      = (l.filter (fun r => r.id_repo == i && r.created_at == t)).map relabelRaw := by
  unfold clean_data relabelStep diffStep
  rw [List.filter_map relabelClean (diffGo [] (sortStep l))]
  have hp : ((fun c : CleanRow => c.id_repo == i && c.created_at == t) ∘ relabelClean)
      = (fun c : CleanRow => c.id_repo == i && c.created_at == t) := by
    funext c
    simp [Function.comp, relabelClean_id_repo, relabelClean_created_at]
  rw [hp, List.map_map]
  have hcomp : ((fun c : CleanRow => c.toRawRow) ∘ relabelClean)
      = (relabelRaw ∘ (fun c : CleanRow => c.toRawRow)) := by
    funext c
    simp [Function.comp, relabelClean_toRawRow]
  rw [hcomp, ← List.map_map]
  rw [filter_key_toRaw i t (diffGo [] (sortStep l))]
  rw [diffGo_map_toRawRow (sortStep l) []]
  unfold sortStep
  rw [insertionSort_filter rowLE (fun r => r.id_repo == i && r.created_at == t) ?hk l]
  case hk =>
    intro a b hpa hpb
    rw [Bool.and_eq_true, beq_iff_eq, beq_iff_eq] at hpa hpb
    right
    refine ⟨by rw [hpa.1, hpb.1], ?_⟩
    rw [hpa.2, hpb.2]
    exact tsLE_refl t

/-- Witness instantiating the amended selector order at a concrete
corpus. -/
theorem c7_amended_sorted_order_witness :
    load_non_trending_repositories c7Data ["vvv"]
      = ((groupKeys c7Data).filter (fun k => !((["vvv"] : List String).contains k))).take
          (["vvv"] : List String).length ∧
    (groupKeys c7Data).Pairwise strLE :=
  c7_amended_sorted_order c7Data ["vvv"] (by decide)

